import Mathlib

/-!
Verification development for the `pysph.cpy` code-generation and dispatch slice
(`src/pysph/cpy/transpiler.py` and `src/pysph/cpy/low_level.py`).

Code text is modelled as `List Char`.  Python functions are identified by a
`Nat` token (Python deduplicates code blocks by identity of the function
object); an `Env` record carries the ambient module information that the
Python code obtains by introspection (`__name__`, the identifiers appearing
in call position of a function's source, `getattr`-resolution in the defining
module, and the backend translator's output per function).
-/

namespace PySPH

/-! ## Word-boundary `double` → `float` rewrite

Models `re.sub(r'\bdouble\b', 'float', s)` as used by
`transpiler.convert_to_float_if_needed` and `Kernel._to_float`.
Python's `\w` (for ASCII source text) is alphanumeric or underscore; a `\b`
holds between a word char and a non-word char or at either end of the text.
`scan prev s` walks the text left to right carrying the wordness of the
previous character, replacing each standalone occurrence of `double`.
-/

def isWordChar (c : Char) : Bool := c.isAlphanum || c = '_'

/-- Right word-boundary test: holds at end of text or before a non-word char. -/
def rb : List Char → Bool
  | [] => true
  | c :: _ => !(isWordChar c)

/-- The text beginning at this position spells the token `double`. -/
def dblHead (c : Char) (cs : List Char) : Prop :=
  c = 'd' ∧ cs.take 5 = ['o', 'u', 'b', 'l', 'e']

instance (c : Char) (cs : List Char) : Decidable (dblHead c cs) := by
  unfold dblHead; infer_instance

/-- Left-to-right scanner of `re.sub(r'\bdouble\b', 'float', ·)`:
`prev` records whether the previous character of the original text is a word
character (`false` at the start of the text). -/
def scan (prev : Bool) (s : List Char) : List Char :=
  match s with
  | [] => []
  | c :: cs =>
    if prev then c :: scan (isWordChar c) cs
    else if dblHead c cs ∧ rb (cs.drop 5) = true then
      'f' :: 'l' :: 'o' :: 'a' :: 't' :: scan true (cs.drop 5)
    else c :: scan (isWordChar c) cs
termination_by s.length
decreasing_by
  all_goals first
    | (simp [List.length_drop]; omega)
    | simp

/-- Models `hasSD prev s` decides whether `s` contains a standalone occurrence of the
token `double` (an occurrence with a word boundary on both sides), where
`prev` gives the wordness of the character just before `s`. -/
def hasSD (prev : Bool) (s : List Char) : Bool :=
  match s with
  | [] => false
  | c :: cs =>
    if prev then hasSD (isWordChar c) cs
    else if dblHead c cs ∧ rb (cs.drop 5) = true then true
    else hasSD (isWordChar c) cs
termination_by s.length

/-- Models `Kernel._to_float` and the body of `convert_to_float_if_needed`:
`re.sub(r'\bdouble\b', 'float', s)`. -/
def subDouble (s : List Char) : List Char := scan false s

/-- Models `transpiler.convert_to_float_if_needed`, with the process-wide
`use_double` configuration made an explicit argument. -/
def convert_to_float_if_needed (use_double : Bool) (code : List Char) : List Char :=
  if use_double then code else subDouble code

theorem scan_nil (prev : Bool) : scan prev [] = [] := by
  rw [scan]

theorem scan_cons_true (c : Char) (cs : List Char) :
    scan true (c :: cs) = c :: scan (isWordChar c) cs := by
  rw [scan]; simp

theorem scan_cons_false_pos (c : Char) (cs : List Char)
    (h : dblHead c cs ∧ rb (cs.drop 5) = true) :
    scan false (c :: cs) =
      'f' :: 'l' :: 'o' :: 'a' :: 't' :: scan true (cs.drop 5) := by
  rw [scan]; simp [h]

theorem scan_cons_false_neg (c : Char) (cs : List Char)
    (h : ¬(dblHead c cs ∧ rb (cs.drop 5) = true)) :
    scan false (c :: cs) = c :: scan (isWordChar c) cs := by
  rw [scan]; simp [h]

theorem hasSD_nil (prev : Bool) : hasSD prev [] = false := by
  rw [hasSD]

theorem hasSD_cons_true (c : Char) (cs : List Char) :
    hasSD true (c :: cs) = hasSD (isWordChar c) cs := by
  rw [hasSD]; simp

theorem hasSD_cons_false_pos (c : Char) (cs : List Char)
    (h : dblHead c cs ∧ rb (cs.drop 5) = true) :
    hasSD false (c :: cs) = true := by
  rw [hasSD]; simp [h]

theorem hasSD_cons_false_neg (c : Char) (cs : List Char)
    (h : ¬(dblHead c cs ∧ rb (cs.drop 5) = true)) :
    hasSD false (c :: cs) = hasSD (isWordChar c) cs := by
  rw [hasSD]; simp [h]

theorem wc_d : isWordChar 'd' = true := by decide
theorem wc_o : isWordChar 'o' = true := by decide
theorem wc_u : isWordChar 'u' = true := by decide
theorem wc_b : isWordChar 'b' = true := by decide
theorem wc_l : isWordChar 'l' = true := by decide
theorem wc_e : isWordChar 'e' = true := by decide
theorem wc_f : isWordChar 'f' = true := by decide
theorem wc_a : isWordChar 'a' = true := by decide
theorem wc_t : isWordChar 't' = true := by decide

theorem take5_ouble_iff (cs : List Char) :
    cs.take 5 = ['o', 'u', 'b', 'l', 'e'] ↔
      ∃ t, cs = 'o' :: 'u' :: 'b' :: 'l' :: 'e' :: t := by
  constructor
  · intro h
    rcases cs with _ | ⟨c1, cs⟩
    · simp at h
    rcases cs with _ | ⟨c2, cs⟩
    · simp [List.take] at h
    rcases cs with _ | ⟨c3, cs⟩
    · simp [List.take] at h
    rcases cs with _ | ⟨c4, cs⟩
    · simp [List.take] at h
    rcases cs with _ | ⟨c5, cs⟩
    · simp [List.take] at h
    simp [List.take] at h
    obtain ⟨rfl, rfl, rfl, rfl, rfl⟩ := h
    exact ⟨cs, rfl⟩
  · rintro ⟨t, rfl⟩
    rfl

theorem rb_false_iff (s : List Char) :
    rb s = false ↔ ∃ w t, s = w :: t ∧ isWordChar w = true := by
  cases s with
  | nil => simp [rb]
  | cons w t =>
    simp [rb]

/-- A run of word characters in the input passes through `scan true`
unchanged: if the output of `scan true` starts with a word-char string `pre`,
so did the input, and the rest of the output is again a `scan true`. -/
theorem scan_true_word_run (pre : List Char) (hpre : ∀ a ∈ pre, isWordChar a = true) :
    ∀ cs r, scan true cs = pre ++ r → ∃ cs2, cs = pre ++ cs2 ∧ r = scan true cs2 := by
  induction pre with
  | nil => intro cs r h; exact ⟨cs, rfl, h.symm⟩
  | cons a pre ih =>
    intro cs r h
    cases cs with
    | nil => simp [scan_nil] at h
    | cons c cs0 =>
      rw [scan_cons_true] at h
      simp only [List.cons_append, List.cons.injEq] at h
      obtain ⟨rfl, h2⟩ := h
      have ha : isWordChar c = true := hpre c (by simp)
      rw [ha] at h2
      obtain ⟨cs2, rfl, hr⟩ := ih (fun x hx => hpre x (by simp [hx])) cs0 r h2
      exact ⟨cs2, by simp, hr⟩

theorem scan_true_double_run (s : List Char) :
    scan true ('d' :: 'o' :: 'u' :: 'b' :: 'l' :: 'e' :: s) =
      'd' :: 'o' :: 'u' :: 'b' :: 'l' :: 'e' :: scan true s := by
  simp only [scan_cons_true, wc_d, wc_o, wc_u, wc_b, wc_l, wc_e]

/-- Core soundness of the rewrite: the output of `scan` contains no
standalone occurrence of the token `double`. -/
theorem hasSD_scan (n : Nat) :
    ∀ s : List Char, s.length ≤ n → ∀ prev, hasSD prev (scan prev s) = false := by
  induction n with
  | zero =>
    intro s hs prev
    match s, hs with
    | [], _ => simp [scan_nil, hasSD_nil]
  | succ n ih =>
    intro s hs prev
    cases s with
    | nil => simp [scan_nil, hasSD_nil]
    | cons c cs =>
      simp at hs
      cases prev with
      | true =>
        rw [scan_cons_true, hasSD_cons_true]
        exact ih cs hs (isWordChar c)
      | false =>
        by_cases hd : dblHead c cs ∧ rb (cs.drop 5) = true
        · -- a match: the output starts with `float`
          rw [scan_cons_false_pos c cs hd]
          rw [hasSD_cons_false_neg _ _ (by simp [dblHead])]
          simp only [hasSD_cons_true, wc_f, wc_l, wc_o, wc_a, wc_t]
          exact ih (cs.drop 5) (by simp [List.length_drop]; omega) true
        · -- no match at this position
          rw [scan_cons_false_neg c cs hd]
          by_cases hd2 : dblHead c (scan (isWordChar c) cs) ∧
              rb ((scan (isWordChar c) cs).drop 5) = true
          · -- the output cannot spell a fresh standalone `double` here
            exfalso
            obtain ⟨⟨rfl, htake⟩, hrb⟩ := hd2
            rw [wc_d] at htake hrb
            have hsplit : scan true cs =
                ['o', 'u', 'b', 'l', 'e'] ++ (scan true cs).drop 5 := by
              conv_lhs => rw [← List.take_append_drop 5 (scan true cs)]
              rw [htake]
            obtain ⟨cs2, hcs2, hrest⟩ :=
              scan_true_word_run ['o', 'u', 'b', 'l', 'e']
                (by intro x hx; fin_cases hx <;> decide)
                cs ((scan true cs).drop 5) hsplit
            -- so the input also spelled `double` here; the boundary must
            -- have failed on the right, i.e. a word char follows in input
            have hdh : dblHead 'd' cs := ⟨rfl, by rw [hcs2]; rfl⟩
            have hrbf : rb (cs.drop 5) = false := by
              rcases Bool.eq_false_or_eq_true (rb (cs.drop 5)) with h | h
              · exact absurd ⟨hdh, h⟩ hd
              · exact h
            rw [hcs2] at hrbf
            simp only [List.cons_append, List.nil_append, List.drop_succ_cons,
              List.drop_zero] at hrbf
            obtain ⟨w, t, hwt, hww⟩ := (rb_false_iff cs2).mp hrbf
            rw [hwt] at hrest
            rw [scan_cons_true, hww] at hrest
            rw [hrest] at hrb
            simp [rb, hww] at hrb
          · rw [hasSD_cons_false_neg _ _ hd2]
            exact ih cs hs (isWordChar c)

/-- An occurrence of `double` directly followed by a word character (inside a
longer identifier) is left unchanged by the rewrite. -/
theorem scan_false_double_wordchar (w : Char) (s : List Char) (hw : isWordChar w = true) :
    scan false ('d' :: 'o' :: 'u' :: 'b' :: 'l' :: 'e' :: w :: s) =
      'd' :: 'o' :: 'u' :: 'b' :: 'l' :: 'e' :: scan true (w :: s) := by
  rw [scan_cons_false_neg]
  · simp only [wc_d, scan_cons_true, wc_o, wc_u, wc_b, wc_l, wc_e]
  · intro hcon
    have h2 : rb (('o' :: 'u' :: 'b' :: 'l' :: 'e' :: w :: s).drop 5) = true := hcon.2
    simp [List.drop, rb, hw] at h2

/-! ## Transpiler: builtin filtering, code blocks and `add`

Models `transpiler.py`.  An `Env` packages what the Python code obtains by
introspection: `fname f` is `f.__name__`; `calls f` is the list of
identifiers in call position of `f`'s source (`ast_utils.get_calls`);
`resolve s` is `getattr(importlib.import_module(f.__module__), s)`; `gen f`
is the backend translator's code text for `f` (deterministic per the spec's
translator contract); `mathNames` is `[x for x in dir(math) if not
x.startswith('_')]`. -/

structure Env where
  fname : Nat → String
  calls : Nat → List String
  resolve : String → Nat
  gen : Nat → List Char
  mathNames : List String

/-- Models `transpiler.BUILTINS`: the math-module names plus the fixed helpers. -/
def BUILTINS (env : Env) : List String :=
  env.mathNames ++
    ["max", "abs", "min", "range", "declare", "local_barrier", "annotate", "printf"]

/-- Models `transpiler.filter_calls`. -/
def filter_calls (env : Env) (calls : List String) : List String :=
  calls.filter (fun x => decide (x ∉ BUILTINS env))

/-- Models `transpiler.get_all_functions`: callee identifiers of `f`, builtins
removed, resolved in `f`'s defining module. -/
def get_all_functions (env : Env) (f : Nat) : List Nat :=
  (filter_calls env (env.calls f)).map env.resolve

/-- Models `transpiler.CodeBlock`: `obj` is the identity of the originating function
(`CodeBlock.__eq__` compares `self.obj`, i.e. function identity, never the
generated text), `code` the generated text. -/
structure CodeBlock where
  obj : Nat
  code : List Char
deriving DecidableEq

/-- The `for f in get_all_functions(obj): self.add(f)` loop: run `step`
sequentially over the list, threading the block list, propagating failure. -/
def runList (step : Nat → List CodeBlock → Option (List CodeBlock)) :
    List Nat → List CodeBlock → Option (List CodeBlock)
  | [], bs => some bs
  | g :: gs, bs =>
    match step g bs with
    | none => none
    | some bs2 => runList step gs bs2

/-- Models `Transpiler.add`, with an explicit recursion-depth budget `fuel`: Python's
`add` recurses unboundedly; `addF env fuel f bs = none` models that the call
does not return within recursion depth `fuel`, and `some bs2` that it returns,
leaving block list `bs2`.  The membership test `f ∈ bs.map obj` is Python's
`if obj in self.blocks` via `CodeBlock.__eq__` (identity of the function). -/
def addF (env : Env) (fuel : Nat) : Nat → List CodeBlock → Option (List CodeBlock) :=
  match fuel with
  | 0 => fun _ _ => none
  | fuel + 1 => fun f bs =>
    if f ∈ bs.map CodeBlock.obj then some bs
    else
      match runList (addF env fuel) (get_all_functions env f) bs with
      | none => none
      | some bs2 => some (bs2 ++ [⟨f, env.gen f⟩])

/-- Models `Transpiler` state: the backend header fixed at construction, and the
registered code blocks. -/
structure Transpiler where
  header : List Char
  blocks : List CodeBlock
deriving DecidableEq

/-- Models `Transpiler.add` on the transpiler state. -/
def tpAdd (env : Env) (fuel : Nat) (t : Transpiler) (f : Nat) : Option Transpiler :=
  (addF env fuel f t.blocks).map (fun bs => ⟨t.header, bs⟩)

/-- Models `'\n'.join` of a list of code strings. -/
def joinNL (ls : List (List Char)) : List Char :=
  List.intercalate ['\n'] ls

/-- Models `Transpiler.get_code`: header followed by every block's code, in
registration order, joined by newlines. -/
def get_code (t : Transpiler) : List Char :=
  joinNL (t.header :: t.blocks.map CodeBlock.code)

/-- The source handed to the OpenCL build in `Transpiler.compile`:
`convert_to_float_if_needed(self.get_code())`. -/
def openclSource (use_double : Bool) (t : Transpiler) : List Char :=
  convert_to_float_if_needed use_double (get_code t)

theorem addF_zero (env : Env) (f : Nat) (bs : List CodeBlock) :
    addF env 0 f bs = none := rfl

theorem addF_succ (env : Env) (fuel f : Nat) (bs : List CodeBlock) :
    addF env (fuel + 1) f bs =
      if f ∈ bs.map CodeBlock.obj then some bs
      else
        match runList (addF env fuel) (get_all_functions env f) bs with
        | none => none
        | some bs2 => some (bs2 ++ [⟨f, env.gen f⟩]) := rfl

/-- Sequentially running a list-of-blocks-extending step only extends. -/
theorem runList_extends {step : Nat → List CodeBlock → Option (List CodeBlock)}
    (hstep : ∀ g cs cs2, step g cs = some cs2 → cs <+: cs2) :
    ∀ gs bs bs2, runList step gs bs = some bs2 → bs <+: bs2 := by
  intro gs
  induction gs with
  | nil =>
    intro bs bs2 h
    simp [runList] at h
    exact h ▸ List.prefix_refl bs
  | cons g gs ih =>
    intro bs bs2 h
    rw [runList] at h
    cases hg : step g bs with
    | none => rw [hg] at h; exact absurd h (by simp)
    | some bs1 =>
      rw [hg] at h
      exact (hstep g bs bs1 hg).trans (ih bs1 bs2 h)

/-- Generic preservation of a predicate along `runList`. -/
theorem runList_pres {step : Nat → List CodeBlock → Option (List CodeBlock)}
    (P : List CodeBlock → Prop) :
    ∀ gs bs bs2, (∀ g ∈ gs, ∀ cs cs2, step g cs = some cs2 → P cs → P cs2) →
      runList step gs bs = some bs2 → P bs → P bs2 := by
  intro gs
  induction gs with
  | nil =>
    intro bs bs2 _ h hP
    simp [runList] at h
    exact h ▸ hP
  | cons g gs ih =>
    intro bs bs2 hstep h hP
    rw [runList] at h
    cases hg : step g bs with
    | none => rw [hg] at h; exact absurd h (by simp)
    | some bs1 =>
      rw [hg] at h
      exact ih bs1 bs2 (fun g2 hg2 => hstep g2 (by simp [hg2])) h
        (hstep g (by simp) bs bs1 hg hP)

/-- Models `add` only ever appends to the block list. -/
theorem addF_extends (env : Env) :
    ∀ fuel f bs bs2, addF env fuel f bs = some bs2 → bs <+: bs2 := by
  intro fuel
  induction fuel with
  | zero => intro f bs bs2 h; rw [addF_zero] at h; exact absurd h (by simp)
  | succ fuel ih =>
    intro f bs bs2 h
    rw [addF_succ] at h
    by_cases hmem : f ∈ bs.map CodeBlock.obj
    · rw [if_pos hmem] at h
      simp at h
      exact h ▸ List.prefix_refl bs
    · rw [if_neg hmem] at h
      cases hr : runList (addF env fuel) (get_all_functions env f) bs with
      | none => rw [hr] at h; exact absurd h (by simp)
      | some bs1 =>
        rw [hr] at h
        simp at h
        have h1 : bs <+: bs1 := runList_extends (fun g => ih g) _ bs bs1 hr
        exact h ▸ h1.trans (List.prefix_append bs1 _)

/-- After a successful `add f`, a block for `f` is registered. -/
theorem addF_mem_self (env : Env) :
    ∀ fuel f bs bs2, addF env fuel f bs = some bs2 → f ∈ bs2.map CodeBlock.obj := by
  intro fuel f bs bs2 h
  cases fuel with
  | zero => rw [addF_zero] at h; exact absurd h (by simp)
  | succ fuel =>
    rw [addF_succ] at h
    by_cases hmem : f ∈ bs.map CodeBlock.obj
    · rw [if_pos hmem] at h; simp at h; exact h ▸ hmem
    · rw [if_neg hmem] at h
      cases hr : runList (addF env fuel) (get_all_functions env f) bs with
      | none => rw [hr] at h; exact absurd h (by simp)
      | some bs1 =>
        rw [hr] at h
        simp at h
        rw [← h]
        simp

/-- A prefix of the block list keeps its registered objects. -/
theorem mem_obj_of_extends {bs bs2 : List CodeBlock} (h : bs <+: bs2) {x : Nat}
    (hx : x ∈ bs.map CodeBlock.obj) : x ∈ bs2.map CodeBlock.obj := by
  exact (h.map (CodeBlock.obj)).subset hx

/-- After a successful run over `gs`, every member of `gs` is registered. -/
theorem runList_mem (env : Env) (fuel : Nat) :
    ∀ gs bs bs2, runList (addF env fuel) gs bs = some bs2 →
      ∀ g ∈ gs, g ∈ bs2.map CodeBlock.obj := by
  intro gs
  induction gs with
  | nil => intro bs bs2 _ g hg; simp at hg
  | cons g0 gs ih =>
    intro bs bs2 h g hg
    rw [runList] at h
    cases hg0 : addF env fuel g0 bs with
    | none => rw [hg0] at h; exact absurd h (by simp)
    | some bs1 =>
      rw [hg0] at h
      rcases List.mem_cons.mp hg with rfl | hg2
      · exact mem_obj_of_extends (runList_extends (fun g => addF_extends env fuel g) gs bs1 bs2 h)
          (addF_mem_self env fuel g bs bs1 hg0)
      · exact ih bs1 bs2 h g hg2

/-- A successful `add` never registers a member of a "trapped" set `C` (a set
each of whose members has a callee inside `C`) that was wholly unregistered
when the call started. -/
theorem addF_cycle_disjoint (env : Env) (C : List Nat)
    (hC : ∀ c ∈ C, ∃ c2 ∈ C, c2 ∈ get_all_functions env c) :
    ∀ fuel f bs bs2, addF env fuel f bs = some bs2 →
      (∀ c ∈ C, c ∉ bs.map CodeBlock.obj) → ∀ c ∈ C, c ∉ bs2.map CodeBlock.obj := by
  intro fuel
  induction fuel with
  | zero => intro f bs bs2 h; rw [addF_zero] at h; exact absurd h (by simp)
  | succ fuel ih =>
    intro f bs bs2 h hdis
    rw [addF_succ] at h
    by_cases hmem : f ∈ bs.map CodeBlock.obj
    · rw [if_pos hmem] at h; simp at h; exact h ▸ hdis
    · rw [if_neg hmem] at h
      cases hr : runList (addF env fuel) (get_all_functions env f) bs with
      | none => rw [hr] at h; exact absurd h (by simp)
      | some bs1 =>
        rw [hr] at h
        simp at h
        have hdis1 : ∀ c ∈ C, c ∉ bs1.map CodeBlock.obj :=
          runList_pres (fun cs => ∀ c ∈ C, c ∉ cs.map CodeBlock.obj) _ bs bs1
            (fun g _ cs cs2 hs hP => ih g cs cs2 hs hP) hr hdis
        have hfC : f ∉ C := by
          intro hfC
          obtain ⟨c2, hc2C, hc2g⟩ := hC f hfC
          exact hdis1 c2 hc2C (runList_mem env fuel _ bs bs1 hr c2 hc2g)
        intro c hc
        rw [← h]
        simp
        refine ⟨?_, ?_⟩
        · intro x hx hobj
          exact hdis1 c hc (List.mem_map.mpr ⟨x, hx, hobj⟩)
        · intro hcf
          exact hfC (hcf ▸ hc)

/-- Divergence on a call cycle: if `f` belongs to a set `C` in which every
member calls another member, and no member of `C` is registered yet, then
`add f` does not return within any recursion-depth budget. -/
theorem addF_cycle_none (env : Env) (C : List Nat)
    (hC : ∀ c ∈ C, ∃ c2 ∈ C, c2 ∈ get_all_functions env c) :
    ∀ fuel f bs, f ∈ C → (∀ c ∈ C, c ∉ bs.map CodeBlock.obj) →
      addF env fuel f bs = none := by
  intro fuel
  induction fuel with
  | zero => intro f bs _ _; rfl
  | succ fuel ih =>
    intro f bs hf hdis
    rw [addF_succ, if_neg (hdis f hf)]
    have hnone : ∀ gs bs, (∀ c ∈ C, c ∉ bs.map CodeBlock.obj) →
        (∃ c ∈ gs, c ∈ C) → runList (addF env fuel) gs bs = none := by
      intro gs
      induction gs with
      | nil => intro bs _ hex; simp at hex
      | cons g gs ihl =>
        intro bs hdis2 hex
        rw [runList]
        by_cases hgC : g ∈ C
        · rw [ih g bs hgC hdis2]
        · cases hg : addF env fuel g bs with
          | none => rfl
          | some bs1 =>
            apply ihl bs1 (addF_cycle_disjoint env C hC fuel g bs bs1 hg hdis2)
            obtain ⟨c, hcgs, hcC⟩ := hex
            rcases List.mem_cons.mp hcgs with rfl | h2
            · exact absurd hcC hgC
            · exact ⟨c, h2, hcC⟩
    obtain ⟨c2, hc2C, hc2g⟩ := hC f hf
    rw [hnone (get_all_functions env f) bs hdis ⟨c2, hc2g, hc2C⟩]

/-- Call-graph reachability along nodes outside `B` (the already-registered
objects): `ReachA env B f x` means the recursion starting at `f` can actually
descend to `x` without meeting a registered function. -/
inductive ReachA (env : Env) (B : List Nat) : Nat → Nat → Prop
  | refl (f : Nat) : f ∉ B → ReachA env B f f
  | step (f g x : Nat) : f ∉ B → g ∈ get_all_functions env f →
      ReachA env B g x → ReachA env B f x

theorem ReachA.mono {env : Env} {B B2 : List Nat} (hsub : B ⊆ B2) :
    ∀ {f x : Nat}, ReachA env B2 f x → ReachA env B f x := by
  intro f x h
  induction h with
  | refl f hf => exact ReachA.refl f (fun hmem => hf (hsub hmem))
  | step f g x hf hg _ ih => exact ReachA.step f g x (fun hmem => hf (hsub hmem)) hg ih

/-- Provenance: every object registered by a successful `add f` either was
already registered or is reachable from `f` through unregistered nodes. -/
theorem addF_prov (env : Env) :
    ∀ fuel,
      (∀ f bs bs2, addF env fuel f bs = some bs2 →
        ∀ x ∈ bs2.map CodeBlock.obj,
          x ∈ bs.map CodeBlock.obj ∨ ReachA env (bs.map CodeBlock.obj) f x) ∧
      (∀ gs bs bs2, runList (addF env fuel) gs bs = some bs2 →
        ∀ x ∈ bs2.map CodeBlock.obj,
          x ∈ bs.map CodeBlock.obj ∨
            ∃ g ∈ gs, ReachA env (bs.map CodeBlock.obj) g x) := by
  intro fuel
  induction fuel with
  | zero =>
    constructor
    · intro f bs bs2 h; rw [addF_zero] at h; exact absurd h (by simp)
    · intro gs bs bs2 h
      cases gs with
      | nil => simp [runList] at h; intro x hx; exact Or.inl (h ▸ hx)
      | cons g gs => rw [runList, addF_zero] at h; exact absurd h (by simp)
  | succ fuel ih =>
    have hadd : ∀ f bs bs2, addF env (fuel + 1) f bs = some bs2 →
        ∀ x ∈ bs2.map CodeBlock.obj,
          x ∈ bs.map CodeBlock.obj ∨ ReachA env (bs.map CodeBlock.obj) f x := by
      intro f bs bs2 h x hx
      rw [addF_succ] at h
      by_cases hmem : f ∈ bs.map CodeBlock.obj
      · rw [if_pos hmem] at h; simp at h; exact Or.inl (h ▸ hx)
      · rw [if_neg hmem] at h
        cases hr : runList (addF env fuel) (get_all_functions env f) bs with
        | none => rw [hr] at h; exact absurd h (by simp)
        | some bs1 =>
          rw [hr] at h
          simp at h
          rw [← h, List.map_append] at hx
          rcases List.mem_append.mp hx with hx1 | hx2
          · rcases ih.2 _ bs bs1 hr x hx1 with hin | ⟨g, hg, hreach⟩
            · exact Or.inl hin
            · exact Or.inr (ReachA.step f g x hmem hg hreach)
          · simp at hx2
            cases hx2
            exact Or.inr (ReachA.refl _ hmem)
    refine ⟨hadd, ?_⟩
    intro gs
    induction gs with
    | nil =>
      intro bs bs2 h x hx
      simp [runList] at h
      exact Or.inl (h ▸ hx)
    | cons g gs ihl =>
      intro bs bs2 h x hx
      rw [runList] at h
      cases hg : addF env (fuel + 1) g bs with
      | none => rw [hg] at h; exact absurd h (by simp)
      | some bs1 =>
        rw [hg] at h
        rcases ihl bs1 bs2 h x hx with hin | ⟨g2, hg2, hreach⟩
        · rcases hadd g bs bs1 hg x hin with hin2 | hreach2
          · exact Or.inl hin2
          · exact Or.inr ⟨g, by simp, hreach2⟩
        · have hpre : bs.map CodeBlock.obj ⊆ bs1.map CodeBlock.obj := fun y hy =>
            mem_obj_of_extends (addF_extends env (fuel + 1) g bs bs1 hg) hy
          exact Or.inr ⟨g2, by simp [hg2], hreach.mono hpre⟩

/-- The nodes of a `ReachA` derivation form a chain: each either steps to
another node of the chain or is the endpoint. -/
theorem path_of_reach (env : Env) (B : List Nat) :
    ∀ g x, ReachA env B g x → ∃ P : List Nat, g ∈ P ∧ (∀ y ∈ P, y ∉ B) ∧
      ∀ y ∈ P, (∃ z ∈ P, z ∈ get_all_functions env y) ∨ y = x := by
  intro g x h
  induction h with
  | refl f hf => exact ⟨[f], by simp, by simp [hf], by simp⟩
  | step f g2 x hf hg2 _ ih =>
    obtain ⟨P, hgP, hPB, hPstep⟩ := ih
    refine ⟨f :: P, by simp, ?_, ?_⟩
    · intro y hy
      rcases List.mem_cons.mp hy with rfl | hy2
      · exact hf
      · exact hPB y hy2
    · intro y hy
      rcases List.mem_cons.mp hy with rfl | hy2
      · exact Or.inl ⟨g2, by simp [hgP], hg2⟩
      · rcases hPstep y hy2 with ⟨z, hz, hz2⟩ | rfl
        · exact Or.inl ⟨z, by simp [hz], hz2⟩
        · exact Or.inr rfl

/-- A back-edge `f → g` together with a `B`-avoiding path `g →* f` yields a
trapped set containing `f` and disjoint from `B`. -/
theorem cycle_set_of_backedge (env : Env) (B : List Nat) (f g : Nat)
    (hf : f ∉ B) (hg : g ∈ get_all_functions env f) (h : ReachA env B g f) :
    ∃ C : List Nat, f ∈ C ∧ (∀ c ∈ C, ∃ c2 ∈ C, c2 ∈ get_all_functions env c) ∧
      ∀ c ∈ C, c ∉ B := by
  obtain ⟨P, hgP, hPB, hPstep⟩ := path_of_reach env B g f h
  refine ⟨f :: P, by simp, ?_, ?_⟩
  · intro c hc
    rcases List.mem_cons.mp hc with rfl | hc2
    · exact ⟨g, by simp [hgP], hg⟩
    · rcases hPstep c hc2 with ⟨z, hz, hz2⟩ | rfl
      · exact ⟨z, by simp [hz], hz2⟩
      · exact ⟨g, by simp [hgP], hg⟩
  · intro c hc
    rcases List.mem_cons.mp hc with rfl | hc2
    · exact hf
    · exact hPB c hc2

/-- Models `add` preserves the no-duplicate invariant of the registered objects:
each function is registered at most once, identified by the function object. -/
theorem addF_nodup (env : Env) :
    ∀ fuel f bs bs2, addF env fuel f bs = some bs2 →
      (bs.map CodeBlock.obj).Nodup → (bs2.map CodeBlock.obj).Nodup := by
  intro fuel
  induction fuel with
  | zero => intro f bs bs2 h; rw [addF_zero] at h; exact absurd h (by simp)
  | succ fuel ih =>
    intro f bs bs2 h hnd
    rw [addF_succ] at h
    by_cases hmem : f ∈ bs.map CodeBlock.obj
    · rw [if_pos hmem] at h; simp at h; exact h ▸ hnd
    · rw [if_neg hmem] at h
      cases hr : runList (addF env fuel) (get_all_functions env f) bs with
      | none => rw [hr] at h; exact absurd h (by simp)
      | some bs1 =>
        rw [hr] at h
        simp at h
        have hnd1 : (bs1.map CodeBlock.obj).Nodup :=
          runList_pres (fun cs => (cs.map CodeBlock.obj).Nodup) _ bs bs1
            (fun g _ cs cs2 hs hP => ih g cs cs2 hs hP) hr hnd
        have hf1 : f ∉ bs1.map CodeBlock.obj := by
          intro hfin
          rcases (addF_prov env fuel).2 _ bs bs1 hr f hfin with hin | ⟨g, hg, hreach⟩
          · exact hmem hin
          · obtain ⟨C, hfC, hCstep, hCdis⟩ :=
              cycle_set_of_backedge env (bs.map CodeBlock.obj) f g hmem hg hreach
            have : addF env (fuel + 1) f bs = none :=
              addF_cycle_none env C hCstep (fuel + 1) f bs hfC hCdis
            rw [addF_succ, if_neg hmem, hr] at this
            simp at this
        rw [← h, List.map_append]
        simp [List.nodup_append, hnd1, hf1]

/-- Dependency order of a block list: every callee of the function registered
at position `i` is registered strictly earlier. -/
def DepOrd (env : Env) (bs : List CodeBlock) : Prop :=
  ∀ i (hi : i < bs.length), ∀ g ∈ get_all_functions env (bs[i].obj),
    g ∈ (bs.take i).map CodeBlock.obj

/-- Appending a block whose callees are all present preserves `DepOrd`. -/
theorem depOrd_append (env : Env) (bs : List CodeBlock) (f : Nat) (code : List Char)
    (hd : DepOrd env bs)
    (hcal : ∀ g ∈ get_all_functions env f, g ∈ bs.map CodeBlock.obj) :
    DepOrd env (bs ++ [⟨f, code⟩]) := by
  intro i hi g hg
  simp at hi
  by_cases hlt : i < bs.length
  · rw [List.getElem_append_left hlt] at hg
    rw [List.take_append_of_le_length (by omega)]
    exact hd i hlt g hg
  · have hieq : i = bs.length := by omega
    subst hieq
    rw [List.getElem_concat_length _ _ _ rfl] at hg
    rw [List.take_left]
    exact hcal g hg

/-- Models `add` preserves dependency order of the registered block list. -/
theorem addF_depOrd (env : Env) :
    ∀ fuel f bs bs2, addF env fuel f bs = some bs2 →
      DepOrd env bs → DepOrd env bs2 := by
  intro fuel
  induction fuel with
  | zero => intro f bs bs2 h; rw [addF_zero] at h; exact absurd h (by simp)
  | succ fuel ih =>
    intro f bs bs2 h hd
    rw [addF_succ] at h
    by_cases hmem : f ∈ bs.map CodeBlock.obj
    · rw [if_pos hmem] at h; simp at h; exact h ▸ hd
    · rw [if_neg hmem] at h
      cases hr : runList (addF env fuel) (get_all_functions env f) bs with
      | none => rw [hr] at h; exact absurd h (by simp)
      | some bs1 =>
        rw [hr] at h
        simp at h
        have hd1 : DepOrd env bs1 :=
          runList_pres (DepOrd env) _ bs bs1
            (fun g _ cs cs2 hs hP => ih g cs cs2 hs hP) hr hd
        rw [← h]
        exact depOrd_append env bs1 f (env.gen f) hd1
          (fun g hg => runList_mem env fuel _ bs bs1 hr g hg)

/-- Closure of a block list: every callee of a registered function is
registered. -/
def ClosedBlocks (env : Env) (bs : List CodeBlock) : Prop :=
  ∀ x ∈ bs.map CodeBlock.obj, ∀ g ∈ get_all_functions env x,
    g ∈ bs.map CodeBlock.obj

/-- Models `add` preserves closure of the registered block list. -/
theorem addF_closed (env : Env) :
    ∀ fuel f bs bs2, addF env fuel f bs = some bs2 →
      ClosedBlocks env bs → ClosedBlocks env bs2 := by
  intro fuel
  induction fuel with
  | zero => intro f bs bs2 h; rw [addF_zero] at h; exact absurd h (by simp)
  | succ fuel ih =>
    intro f bs bs2 h hcl
    rw [addF_succ] at h
    by_cases hmem : f ∈ bs.map CodeBlock.obj
    · rw [if_pos hmem] at h; simp at h; exact h ▸ hcl
    · rw [if_neg hmem] at h
      cases hr : runList (addF env fuel) (get_all_functions env f) bs with
      | none => rw [hr] at h; exact absurd h (by simp)
      | some bs1 =>
        rw [hr] at h
        simp at h
        have hcl1 : ClosedBlocks env bs1 :=
          runList_pres (ClosedBlocks env) _ bs bs1
            (fun g _ cs cs2 hs hP => ih g cs cs2 hs hP) hr hcl
        intro x hx g hg
        rw [← h, List.map_append] at hx ⊢
        simp at hx ⊢
        rcases hx with hx1 | rfl
        · exact Or.inl (by simpa using hcl1 x (by simpa using hx1) g hg)
        · exact Or.inl (by
            have := runList_mem env fuel _ bs bs1 hr g hg
            simpa using this)

/-- No registered block has a builtin name. -/
def NoBuiltins (env : Env) (bs : List CodeBlock) : Prop :=
  ∀ b ∈ bs, env.fname b.obj ∉ BUILTINS env

/-- Functions discovered through the call-graph closure never have builtin
names, provided resolving a non-builtin identifier in the module yields a
function whose name is not builtin either. -/
theorem gaf_not_builtin (env : Env)
    (hres : ∀ s, s ∉ BUILTINS env → env.fname (env.resolve s) ∉ BUILTINS env)
    (f : Nat) :
    ∀ g ∈ get_all_functions env f, env.fname g ∉ BUILTINS env := by
  intro g hg
  simp only [get_all_functions, filter_calls, List.mem_map, List.mem_filter,
    decide_eq_true_eq] at hg
  obtain ⟨s, ⟨_, hs2⟩, rfl⟩ := hg
  exact hres s hs2

/-- Models `add` of a non-builtin function preserves builtin-freedom of the
registered block list. -/
theorem addF_noBuiltins (env : Env)
    (hres : ∀ s, s ∉ BUILTINS env → env.fname (env.resolve s) ∉ BUILTINS env) :
    ∀ fuel f bs bs2, addF env fuel f bs = some bs2 →
      env.fname f ∉ BUILTINS env → NoBuiltins env bs → NoBuiltins env bs2 := by
  intro fuel
  induction fuel with
  | zero => intro f bs bs2 h; rw [addF_zero] at h; exact absurd h (by simp)
  | succ fuel ih =>
    intro f bs bs2 h hf hnb
    rw [addF_succ] at h
    by_cases hmem : f ∈ bs.map CodeBlock.obj
    · rw [if_pos hmem] at h; simp at h; exact h ▸ hnb
    · rw [if_neg hmem] at h
      cases hr : runList (addF env fuel) (get_all_functions env f) bs with
      | none => rw [hr] at h; exact absurd h (by simp)
      | some bs1 =>
        rw [hr] at h
        simp at h
        have hnb1 : NoBuiltins env bs1 :=
          runList_pres (NoBuiltins env) _ bs bs1
            (fun g hg cs cs2 hs hP =>
              ih g cs cs2 hs (gaf_not_builtin env hres f g hg) hP) hr hnb
        intro b hb
        rw [← h] at hb
        rcases List.mem_append.mp hb with hb1 | hb2
        · exact hnb1 b hb1
        · simp at hb2
          rw [hb2]
          exact hf

/-- Termination on ranked (acyclic) call graphs: if a rank function strictly
decreases along call edges, `add` returns within budget `rank f + 1`. -/
theorem addF_term (env : Env) (r : Nat → Nat)
    (hr : ∀ f g, g ∈ get_all_functions env f → r g < r f) :
    ∀ fuel f bs, r f < fuel → (addF env fuel f bs).isSome = true := by
  intro fuel
  induction fuel with
  | zero => intro f bs h; omega
  | succ fuel ih =>
    intro f bs hf
    rw [addF_succ]
    by_cases hmem : f ∈ bs.map CodeBlock.obj
    · simp [hmem]
    · rw [if_neg hmem]
      have hlist : ∀ gs bs, (∀ g ∈ gs, r g < fuel) →
          (runList (addF env fuel) gs bs).isSome = true := by
        intro gs
        induction gs with
        | nil => intro bs _; simp [runList]
        | cons g gs ihl =>
          intro bs hgs
          rw [runList]
          cases hg : addF env fuel g bs with
          | none =>
            have := ih g bs (hgs g (by simp))
            rw [hg] at this
            simp at this
          | some bs1 => exact ihl bs1 (fun g2 h2 => hgs g2 (by simp [h2]))
      have hgs : ∀ g ∈ get_all_functions env f, r g < fuel :=
        fun g hg => lt_of_lt_of_le (hr f g hg) (Nat.lt_succ_iff.mp hf)
      cases hopt : runList (addF env fuel) (get_all_functions env f) bs with
      | none =>
        have := hlist (get_all_functions env f) bs hgs
        rw [hopt] at this
        simp at this
      | some bs1 => simp

/-! ## Occupancy partitioner (`low_level.splay`)

The queue's device is abstracted to its two limits: `dev_max_wg`
(`dev.max_work_group_size`) and `compute_units` (`dev.max_compute_units`).
The returned 1-tuples are modelled as the pair
(`group_count * work_items_per_group`, `work_items_per_group`). -/

/-- The effective work-group bound of `splay`:
`min(128, device max)`, further capped by the kernel-specific limit. -/
def max_wg (dev_max_wg : Nat) (cap : Option Nat) : Nat :=
  match cap with
  | none => min 128 dev_max_wg
  | some k => min (min 128 dev_max_wg) k

/-- Models `low_level.splay`. -/
def splay (dev_max_wg compute_units n : Nat) (cap : Option Nat) : Nat × Nat :=
  let max_work_items := max_wg dev_max_wg cap
  let min_work_items := min 64 max_work_items
  let full_groups := compute_units * 4 * 8
  if n < min_work_items then
    (min_work_items, min_work_items)
  else if n < full_groups * min_work_items then
    (((n + min_work_items - 1) / min_work_items) * min_work_items, min_work_items)
  else if n < full_groups * max_work_items then
    let grp := (n + min_work_items - 1) / min_work_items
    let wi := ((grp + full_groups - 1) / full_groups) * min_work_items
    (full_groups * wi, wi)
  else
    (((n + max_work_items - 1) / max_work_items) * max_work_items, max_work_items)

/-- Ceiling-division times divisor dominates the numerator. -/
theorem le_ceil_mul {d : Nat} (hd : 0 < d) (n : Nat) : n ≤ ((n + d - 1) / d) * d := by
  have h := Nat.div_add_mod (n + d - 1) d
  have hr : (n + d - 1) % d < d := Nat.mod_lt _ hd
  have hc : ((n + d - 1) / d) * d = d * ((n + d - 1) / d) := Nat.mul_comm _ _
  omega

/-- Ceiling division is the least sufficient multiplier. -/
theorem ceil_le_of_le {d m n : Nat} (hd : 0 < d) (h : n ≤ m * d) :
    (n + d - 1) / d ≤ m := by
  have h2 : n + d - 1 ≤ m * d + (d - 1) := by omega
  have h3 : m * d + (d - 1) = d * m + (d - 1) := by rw [Nat.mul_comm]
  rw [Nat.div_le_iff_le_mul_add_pred hd]
  omega

/-! ## Types and argument marshalling (`low_level.Kernel`, `low_level.LocalMem`) -/

/-- Models `types.KnownType` as used here: the declared type string and its base
(element) type string. -/
structure KnownType where
  type : List Char
  base_type : List Char
deriving DecidableEq

/-- Modelled from the spec: `ctype_to_dtype` from `pysph.cpy.types` (a module
of this repository not contained in the given sources) maps a C type name to
a numpy dtype; we model the dtype by its element byte-width (numpy
`itemsize`), the only attribute this slice uses: 64-bit `double`/`long` have
width 8, 32-bit `float`/`int`/`unsigned int` width 4; unknown names fail
(`none`). -/
def ctype_itemsize (t : List Char) : Option Nat :=
  if t = ('d' :: 'o' :: 'u' :: 'b' :: 'l' :: 'e' :: []) then some 8
  else if t = ('f' :: 'l' :: 'o' :: 'a' :: 't' :: []) then some 4
  else if t = ('i' :: 'n' :: 't' :: []) then some 4
  else if t = ('l' :: 'o' :: 'n' :: 'g' :: []) then some 8
  else if t = ('u' :: 'i' :: 'n' :: 't' :: []) then some 4
  else none

/-- Models `Kernel._get_func_info`'s per-annotation precision adjustment: under a
32-bit policy every `double` in the declared type strings is rewritten to
`float` (`Kernel._to_float` is `re.sub(r'\bdouble\b', 'float', s)`). -/
def adjust_type (use_double : Bool) (kt : KnownType) : KnownType :=
  if use_double then kt else ⟨subDouble kt.type, subDouble kt.base_type⟩

/-- Models `Kernel._get_func_info`: the declared annotations (argument name paired
with its `KnownType`), each precision-adjusted once at construction. -/
def get_func_info (use_double : Bool) (anns : List (String × KnownType)) :
    List (String × KnownType) :=
  anns.map (fun p => (p.1, adjust_type use_double p.2))

/-- A device scratch ("local") memory object returned by the runtime
(`pyopencl.LocalMemory`): its identity and its size in bytes. -/
structure Mem where
  allocId : Nat
  size : Nat
deriving DecidableEq

/-- The state of a `LocalMem` descriptor: the author-chosen multiple and the
`(c_type, workgroup_size)` → allocation cache. -/
structure LMState where
  size : Nat
  cache : List ((List Char × Nat) × Mem)
deriving DecidableEq

/-- Models `LocalMem.get` (opencl backend): on a cache hit the cached allocation
object itself is returned and no runtime request is issued; on a miss a fresh
allocation of `itemsize * self.size * workgroup_size` bytes is requested
(`fresh` names the identity the runtime gives it), cached and returned.  The
`Bool` records whether a runtime allocation request was issued by this call;
`none` models the failure of `ctype_to_dtype` on an unknown type name. -/
def lmGet (st : LMState) (c_type : List Char) (workgroup_size : Nat) (fresh : Nat) :
    Option (Mem × LMState × Bool) :=
  match st.cache.lookup (c_type, workgroup_size) with
  | some m => some (m, st, false)
  | none =>
    match ctype_itemsize c_type with
    | none => none
    | some sz =>
      let m : Mem := ⟨fresh, sz * st.size * workgroup_size⟩
      some (m, ⟨st.size, ((c_type, workgroup_size), m) :: st.cache⟩, true)

/-- A positional argument of a kernel call: a device `Array`, a `LocalMem`
descriptor (carrying its state and the runtime's next allocation identity),
or a plain scalar. -/
inductive KArg where
  | array (bufId : Nat)
  | localmem (st : LMState) (fresh : Nat)
  | scalar (v : Int)
deriving DecidableEq

/-- A marshalled argument as passed to the compiled kernel: the device-side
buffer handle, a local-memory allocation, or a single-element host buffer of
the given element byte-width (`np.array([x], dtype=...)`). -/
inductive CArg where
  | devbuf (bufId : Nat)
  | localbuf (m : Mem)
  | hostbuf (vals : List Int) (itemsize : Nat)
deriving DecidableEq

/-- Models `Kernel._massage_arg`: a device array passes its device data handle, a
`LocalMem` resolves an allocation for the declared base type and the launch
workgroup size, and a plain scalar is wrapped in a single-element host buffer
of the (precision-adjusted) declared type. -/
def massage_arg (workgroup_size : Nat) (x : KArg) (type_info : KnownType) :
    Option CArg :=
  match x with
  | .array b => some (.devbuf b)
  | .localmem st fresh =>
    (lmGet st type_info.base_type workgroup_size fresh).map (fun r => .localbuf r.1)
  | .scalar v =>
    (ctype_itemsize type_info.type).map (fun w => .hostbuf [v] w)

/-- The `for ... in zip(...)`/append loop of `_get_args`: marshal each pair
in order, propagating failure. -/
def mapOpt {α β : Type} (f : α → Option β) : List α → Option (List β)
  | [] => some []
  | a :: l =>
    match f a with
    | none => none
    | some b => (mapOpt f l).map (fun bs => b :: bs)

/-- Models `Kernel._get_args`: `zip` the positional arguments with the stored
per-parameter type info and marshal each pair. -/
def get_args (args : List KArg) (arg_info : List (String × KnownType))
    (workgroup_size : Nat) : Option (List CArg) :=
  mapOpt (fun p => massage_arg workgroup_size p.1 p.2.2) (args.zip arg_info)

/-- The launch geometry computed by `Kernel.__call__` from the logical item
count `n`: with an explicit `local_size` of product `L`, the global size is
rounded up to the next multiple of `L`; otherwise `splay` is called with the
kernel's recorded maximum work-group size. -/
def call_geometry (dev_max_wg compute_units max_wg_kernel n : Nat)
    (local_size : Option Nat) : Nat × Nat :=
  match local_size with
  | some L => (((n + L - 1) / L) * L, L)
  | none => splay dev_max_wg compute_units n (some max_wg_kernel)

/-! ## `Kernel._correct_opencl_address_space`

`str.splitlines` on the generated (newline-terminated) code followed by
`'\n'.join`: lines are modelled with the newline separator, with Python's
convention that a trailing terminator does not produce a final empty line. -/

/-- Worker for `pySplitlines`: `cur` holds the (reversed) current line. -/
def splitlinesAux (cur : List Char) : List Char → List (List Char)
  | [] => if cur.isEmpty then [] else [cur.reverse]
  | c :: cs =>
    if c = '\n' then cur.reverse :: splitlinesAux [] cs
    else splitlinesAux (c :: cur) cs

/-- Python `str.splitlines` (for newline-separated text). -/
def pySplitlines (s : List Char) : List (List Char) :=
  splitlinesAux [] s

/-- Models `Kernel._correct_opencl_address_space`: take the last registered block,
prepend `KERNEL ` to the first line of its code, and store the rejoined
lines back; every other block and the header are untouched.  `none` models
the `IndexError` on an empty block list or empty code. -/
def correct_opencl_address_space (t : Transpiler) : Option Transpiler :=
  match t.blocks.getLast? with
  | none => none
  | some b =>
    match pySplitlines b.code with
    | [] => none
    | l0 :: rest =>
      some ⟨t.header,
        t.blocks.dropLast ++
          [⟨b.obj, joinNL ((('K' :: 'E' :: 'R' :: 'N' :: 'E' :: 'L' :: ' ' :: []) ++ l0) :: rest)⟩]⟩

theorem splitlinesAux_no_newline (s : List Char) :
    ∀ cur, '\n' ∉ cur → ∀ l ∈ splitlinesAux cur s, '\n' ∉ l := by
  induction s with
  | nil =>
    intro cur hcur l hl
    rw [splitlinesAux] at hl
    by_cases hc : cur.isEmpty
    · simp [hc] at hl
    · simp [hc] at hl
      rw [hl]
      simp [hcur]
  | cons c cs ih =>
    intro cur hcur l hl
    rw [splitlinesAux] at hl
    by_cases hc : c = '\n'
    · rw [if_pos hc] at hl
      rcases List.mem_cons.mp hl with rfl | h2
      · simp [hcur]
      · exact ih [] (by simp) l h2
    · rw [if_neg hc] at hl
      exact ih (c :: cur) (by simp [hcur]; exact fun h => hc h.symm) l hl

/-- Lines produced by `pySplitlines` contain no newline. -/
theorem pySplitlines_no_newline (s : List Char) :
    ∀ l ∈ pySplitlines s, '\n' ∉ l :=
  splitlinesAux_no_newline s [] (by simp)

theorem splitlinesAux_push (l : List Char) (hl : '\n' ∉ l) :
    ∀ cur t, splitlinesAux cur (l ++ '\n' :: t) =
      (cur.reverse ++ l) :: splitlinesAux [] t := by
  induction l with
  | nil => intro cur t; simp [splitlinesAux]
  | cons c l ih =>
    intro cur t
    have hc : ¬(c = '\n') := by simp at hl; exact fun h => hl.1 h.symm
    rw [List.cons_append, splitlinesAux, if_neg hc, ih (by simp at hl; exact hl.2)]
    simp

theorem splitlinesAux_pure (l : List Char) (hl : '\n' ∉ l) :
    ∀ cur, splitlinesAux cur l =
      if (cur.reverse ++ l).isEmpty then [] else [cur.reverse ++ l] := by
  induction l with
  | nil => intro cur; simp [splitlinesAux]
  | cons c l ih =>
    intro cur
    have hc : ¬(c = '\n') := by simp at hl; exact fun h => hl.1 h.symm
    rw [splitlinesAux, if_neg hc, ih (by simp at hl; exact hl.2)]
    simp

/-- Round trip: splitting a newline-join recovers the lines, provided no line
contains a newline and the last line is nonempty. -/
theorem pySplitlines_joinNL (ls : List (List Char)) (hnl : ∀ l ∈ ls, '\n' ∉ l)
    (hlast : ∀ l, ls.getLast? = some l → l ≠ []) :
    pySplitlines (joinNL ls) = ls := by
  induction ls with
  | nil => rfl
  | cons l ls ih =>
    cases ls with
    | nil =>
      have hl : l ≠ [] := hlast l rfl
      unfold pySplitlines
      rw [joinNL, List.intercalate]
      simp
      rw [splitlinesAux_pure l (hnl l (by simp)) []]
      simp [hl]
    | cons l2 ls2 =>
      have hj : joinNL (l :: l2 :: ls2) = l ++ '\n' :: joinNL (l2 :: ls2) := by
        rw [joinNL, joinNL, List.intercalate, List.intercalate]
        simp [List.intersperse]
      unfold pySplitlines
      rw [hj, splitlinesAux_push l (hnl l (by simp)) [] _]
      simp
      exact ih (fun x hx => hnl x (by simp [hx]))
        (fun x hx => hlast x (by rw [List.getLast?_cons_cons]; exact hx))

/-! ## Claim C1 -/

/-- Claim C1, counterexample to the clause `local_size ≤ max_wg`: with device
max work-group size 100, one compute unit, `n = 3199` and no kernel cap,
`splay` returns local size 128, exceeding `max_wg = min(128, 100) = 100`
(third regime, work-group size grows in increments of `min_wg = 64`). -/
theorem c1_splay_counterexample :
    splay 100 1 3199 none = (4096, 128) ∧
      max_wg 100 none = 100 ∧ ¬((splay 100 1 3199 none).2 ≤ max_wg 100 none) := by
  refine ⟨by decide, by decide, by decide⟩

/-- Claim C1 (amended): for every `n ≥ 1` and positive device limits (and
positive kernel cap when given), `splay` returns `(global, local)` with
`global % local = 0` and `global ≥ n`; the clause `local ≤ max_wg` holds
whenever `min(64, max_wg)` divides `max_wg` (in particular for every
`max_wg ≤ 64` and for `max_wg = 128`), but can fail otherwise, as the
counterexample shows. -/
theorem c1_splay_partition (dev cu n : Nat) (cap : Option Nat)
    (hn : 1 ≤ n) (hdev : 1 ≤ dev) (hcu : 1 ≤ cu)
    (hcap : ∀ k, cap = some k → 1 ≤ k) :
    (splay dev cu n cap).1 % (splay dev cu n cap).2 = 0 ∧
    n ≤ (splay dev cu n cap).1 ∧
    (min 64 (max_wg dev cap) ∣ max_wg dev cap →
      (splay dev cu n cap).2 ≤ max_wg dev cap) := by
  have hmw : 1 ≤ max_wg dev cap := by
    cases cap with
    | none => exact le_min_iff.mpr ⟨by norm_num, hdev⟩
    | some k =>
      exact le_min_iff.mpr ⟨le_min_iff.mpr ⟨by norm_num, hdev⟩, hcap k rfl⟩
  have hminw : 1 ≤ min 64 (max_wg dev cap) :=
    le_min_iff.mpr ⟨by norm_num, hmw⟩
  have hfg : 1 ≤ cu * 4 * 8 := by
    have h32 : 1 * 4 * 8 ≤ cu * 4 * 8 :=
      Nat.mul_le_mul_right 8 (Nat.mul_le_mul_right 4 hcu)
    omega
  simp only [splay]
  split_ifs with h1 h2 h3
  · exact ⟨Nat.mod_self _, le_of_lt h1, fun _ => min_le_right _ _⟩
  · exact ⟨Nat.mul_mod_left _ _, le_ceil_mul hminw n, fun _ => min_le_right _ _⟩
  · refine ⟨?_, ?_, ?_⟩
    · rw [Nat.mul_comm]
      exact Nat.mul_mod_right _ _
    · have hg1 : n ≤ ((n + min 64 (max_wg dev cap) - 1) / min 64 (max_wg dev cap)) *
          min 64 (max_wg dev cap) := le_ceil_mul hminw n
      have hg2 : (n + min 64 (max_wg dev cap) - 1) / min 64 (max_wg dev cap) ≤
          (((n + min 64 (max_wg dev cap) - 1) / min 64 (max_wg dev cap) + cu * 4 * 8 - 1) /
            (cu * 4 * 8)) * (cu * 4 * 8) := le_ceil_mul hfg _
      calc n ≤ ((n + min 64 (max_wg dev cap) - 1) / min 64 (max_wg dev cap)) *
            min 64 (max_wg dev cap) := hg1
        _ ≤ ((((n + min 64 (max_wg dev cap) - 1) / min 64 (max_wg dev cap) + cu * 4 * 8 - 1) /
              (cu * 4 * 8)) * (cu * 4 * 8)) * min 64 (max_wg dev cap) :=
            Nat.mul_le_mul_right _ hg2
        _ = cu * 4 * 8 *
            ((((n + min 64 (max_wg dev cap) - 1) / min 64 (max_wg dev cap) + cu * 4 * 8 - 1) /
              (cu * 4 * 8)) * min 64 (max_wg dev cap)) := by ring
    · intro hdvd
      obtain ⟨t, ht⟩ := hdvd
      have ht1 : 1 ≤ t := by
        rcases Nat.eq_zero_or_pos t with rfl | h
        · rw [Nat.mul_zero] at ht; omega
        · exact h
      have hnle : n ≤ (cu * 4 * 8 * t) * min 64 (max_wg dev cap) := by
        have : (cu * 4 * 8 * t) * min 64 (max_wg dev cap) =
            cu * 4 * 8 * (min 64 (max_wg dev cap) * t) := by ring
        rw [this, ← ht]
        exact le_of_lt h3
      have hgrp : (n + min 64 (max_wg dev cap) - 1) / min 64 (max_wg dev cap) ≤
          (cu * 4 * 8) * t := ceil_le_of_le hminw hnle
      have hq2 : ((n + min 64 (max_wg dev cap) - 1) / min 64 (max_wg dev cap) +
            cu * 4 * 8 - 1) / (cu * 4 * 8) ≤ t :=
        ceil_le_of_le hfg (by rw [Nat.mul_comm]; exact hgrp)
      calc (((n + min 64 (max_wg dev cap) - 1) / min 64 (max_wg dev cap) +
              cu * 4 * 8 - 1) / (cu * 4 * 8)) * min 64 (max_wg dev cap)
          ≤ t * min 64 (max_wg dev cap) := Nat.mul_le_mul_right _ hq2
        _ = max_wg dev cap := by rw [Nat.mul_comm, ← ht]
  · exact ⟨Nat.mul_mod_left _ _, le_ceil_mul hmw n, fun _ => le_refl _⟩

/-- Witness for C1 at `n = 10`, device max 128, 20 compute units, no cap
(the spec's first scenario: local 64, global 64). -/
theorem c1_splay_partition_witness :
    (1 ≤ 10 ∧ 1 ≤ 128 ∧ 1 ≤ 20) ∧
    splay 128 20 10 none = (64, 64) ∧
    (splay 128 20 10 none).1 % (splay 128 20 10 none).2 = 0 ∧
    10 ≤ (splay 128 20 10 none).1 ∧
    (splay 128 20 10 none).2 ≤ max_wg 128 none := by
  have h := c1_splay_partition 128 20 10 none (by decide) (by decide) (by decide)
    (fun k hk => by cases hk)
  exact ⟨⟨by decide, by decide, by decide⟩, by decide, h.1, h.2.1,
    h.2.2 (by decide)⟩

/-! ## Claim C6 -/

/-- Claim C6: in `Kernel.__call__`, an explicit `local_size` of product `L`
makes the computed global size the least multiple of `L` that is at least
`n`; with no `local_size`, the geometry is exactly the occupancy
partitioner's output for `n` and the kernel's recorded work-group cap. -/
theorem c6_call_geometry (dev cu mwk n L : Nat) (hn : 1 ≤ n) (hL : 1 ≤ L) :
    ((call_geometry dev cu mwk n (some L)).1 % L = 0 ∧
     (call_geometry dev cu mwk n (some L)).2 = L ∧
     n ≤ (call_geometry dev cu mwk n (some L)).1 ∧
     (∀ m, m % L = 0 → n ≤ m → (call_geometry dev cu mwk n (some L)).1 ≤ m)) ∧
    call_geometry dev cu mwk n none = splay dev cu n (some mwk) := by
  refine ⟨⟨Nat.mul_mod_left _ _, rfl, le_ceil_mul hL n, ?_⟩, rfl⟩
  intro m hm hnm
  have hdvd : L ∣ m := Nat.dvd_of_mod_eq_zero hm
  have hmeq : m / L * L = m := Nat.div_mul_cancel hdvd
  have hle : (n + L - 1) / L ≤ m / L := ceil_le_of_le hL (by rw [hmeq]; exact hnm)
  calc (call_geometry dev cu mwk n (some L)).1
      = (n + L - 1) / L * L := rfl
    _ ≤ m / L * L := Nat.mul_le_mul_right _ hle
    _ = m := hmeq

/-- Witness for C6 at `n = 10`, `local_size = 3`: global size 12. -/
theorem c6_call_geometry_witness :
    (1 ≤ 10 ∧ 1 ≤ 3) ∧
    call_geometry 128 20 128 10 (some 3) = (12, 3) ∧
    (call_geometry 128 20 128 10 (some 3)).1 % 3 = 0 ∧
    10 ≤ (call_geometry 128 20 128 10 (some 3)).1 ∧
    (call_geometry 128 20 128 10 (some 3)).1 ≤ 12 ∧
    call_geometry 128 20 128 10 none = splay 128 20 10 (some 128) := by
  have h := c6_call_geometry 128 20 128 10 3 (by decide) (by decide)
  exact ⟨⟨by decide, by decide⟩, by decide, h.1.1, h.1.2.2.1,
    h.1.2.2.2 12 (by decide) (by decide), h.2⟩

/-! ## Claim C5 -/

/-- Claim C5: the precision rewrite is the identity under the 64-bit policy;
under the 32-bit policy the rewritten text — in particular the assembled
OpenCL source built by `Transpiler.compile` — contains no standalone
occurrence of the token `double`, while occurrences of `double` lacking a
word boundary (preceded or followed by a word character, i.e. inside a
longer identifier) pass through unchanged. -/
theorem c5_precision_rewrite :
    (∀ code, convert_to_float_if_needed true code = code) ∧
    (∀ code, hasSD false (convert_to_float_if_needed false code) = false) ∧
    (∀ t : Transpiler, openclSource false t = subDouble (get_code t) ∧
      hasSD false (openclSource false t) = false) ∧
    (∀ s, scan true (('d' :: 'o' :: 'u' :: 'b' :: 'l' :: 'e' :: []) ++ s) =
      ('d' :: 'o' :: 'u' :: 'b' :: 'l' :: 'e' :: []) ++ scan true s) ∧
    (∀ w s, isWordChar w = true →
      scan false (('d' :: 'o' :: 'u' :: 'b' :: 'l' :: 'e' :: []) ++ w :: s) =
        ('d' :: 'o' :: 'u' :: 'b' :: 'l' :: 'e' :: []) ++ scan true (w :: s)) := by
  refine ⟨fun code => rfl, ?_, ?_, ?_, ?_⟩
  · intro code
    exact hasSD_scan code.length code (le_refl _) false
  · intro t
    refine ⟨rfl, ?_⟩
    show hasSD false (convert_to_float_if_needed false (get_code t)) = false
    exact hasSD_scan (get_code t).length (get_code t) (le_refl _) false
  · intro s
    exact scan_true_double_run s
  · intro w s hw
    exact scan_false_double_wordchar w s hw

/-- Witness for C5: the inside-identifier clause at `w = 'x'`, plus a sample
32-bit rewrite (`a double;` becomes `a float;` with no standalone `double`
left). -/
theorem c5_precision_rewrite_witness :
    (isWordChar 'x' = true) ∧
    scan false ('d' :: 'o' :: 'u' :: 'b' :: 'l' :: 'e' :: 'x' :: []) =
      'd' :: 'o' :: 'u' :: 'b' :: 'l' :: 'e' :: scan true ('x' :: []) ∧
    hasSD false
      (convert_to_float_if_needed false
        ('a' :: ' ' :: 'd' :: 'o' :: 'u' :: 'b' :: 'l' :: 'e' :: ';' :: [])) = false := by
  refine ⟨by decide, ?_, ?_⟩
  · exact c5_precision_rewrite.2.2.2.2 'x' [] (by decide)
  · exact c5_precision_rewrite.2.1 _

theorem subDouble_double :
    subDouble ('d' :: 'o' :: 'u' :: 'b' :: 'l' :: 'e' :: []) =
      'f' :: 'l' :: 'o' :: 'a' :: 't' :: [] := by
  show scan false ('d' :: 'o' :: 'u' :: 'b' :: 'l' :: 'e' :: []) = _
  rw [scan_cons_false_pos _ _ (by decide)]
  rw [show List.drop 5 ['o', 'u', 'b', 'l', 'e'] = ([] : List Char) from rfl, scan_nil]

/-! ## Claim C7 -/

/-- Claim C7: under the 32-bit policy, the per-parameter type info of an
argument declared `double` is downgraded to `float` once at construction
(`Kernel._get_func_info`), and marshalling a plain scalar against it
(`Kernel._massage_arg`) wraps it in a single-element host buffer of element
byte-width 4, i.e. 32 bits. -/
theorem c7_scalar_precision (x : Int) (ws : Nat) (name : String) :
    get_func_info false
        [(name, ⟨ 'd' :: 'o' :: 'u' :: 'b' :: 'l' :: 'e' :: [],
                 'd' :: 'o' :: 'u' :: 'b' :: 'l' :: 'e' :: []⟩)] =
      [(name, ⟨ 'f' :: 'l' :: 'o' :: 'a' :: 't' :: [],
               'f' :: 'l' :: 'o' :: 'a' :: 't' :: []⟩)] ∧
    massage_arg ws (KArg.scalar x)
        (adjust_type false
          ⟨ 'd' :: 'o' :: 'u' :: 'b' :: 'l' :: 'e' :: [],
           'd' :: 'o' :: 'u' :: 'b' :: 'l' :: 'e' :: []⟩) =
      some (CArg.hostbuf [x] 4) := by
  constructor
  · simp [get_func_info, adjust_type, subDouble_double]
  · simp [adjust_type, subDouble_double, massage_arg, ctype_itemsize]

/-! ## Claim C2 -/

/-- Claim C2, counterexample: `Kernel._get_args` zips the call-site arguments
with the declared parameter info, so a call with two scalars against one
declared parameter marshals only the first argument and raises no error —
the dispatcher issues the (short) argument list to the device call instead
of failing first. -/
theorem c2_arg_mismatch_counterexample :
    get_args [KArg.scalar 1, KArg.scalar 2]
        [("x", ⟨ 'f' :: 'l' :: 'o' :: 'a' :: 't' :: [],
                'f' :: 'l' :: 'o' :: 'a' :: 't' :: []⟩)] 64 =
      some [CArg.hostbuf [1] 4] ∧
    ¬([KArg.scalar 1, KArg.scalar 2].length =
      [("x", KnownType.mk ('f' :: 'l' :: 'o' :: 'a' :: 't' :: [])
        ('f' :: 'l' :: 'o' :: 'a' :: 't' :: []))].length) := by
  exact ⟨by decide, by decide⟩

theorem mapOpt_length {α β : Type} (f : α → Option β) :
    ∀ (l : List α) (res : List β), mapOpt f l = some res → res.length = l.length := by
  intro l
  induction l with
  | nil => intro res h; simp [mapOpt] at h; simp [← h]
  | cons a l ih =>
    intro res h
    rw [mapOpt] at h
    cases hf : f a with
    | none => rw [hf] at h; simp at h
    | some b =>
      rw [hf] at h
      cases hrest : mapOpt f l with
      | none => rw [hrest] at h; simp at h
      | some bs =>
        rw [hrest] at h
        simp at h
        rw [← h]
        simp [ih bs hrest]

/-- Claim C2 (amended): `Kernel._get_args` performs no argument-count check:
it zips the positional arguments with the declared parameter info, so when
the counts differ the marshalled list silently has the length of the shorter
side (excess arguments dropped, excess parameters left unbound), and no
usage error is raised by this layer before the device call. -/
theorem c2_arg_mismatch (args : List KArg) (info : List (String × KnownType))
    (ws : Nat) (res : List CArg) (h : get_args args info ws = some res) :
    res.length = min args.length info.length := by
  have h2 := mapOpt_length _ _ _ h
  rw [h2, List.length_zip]

/-- Witness for C2 at the counterexample input. -/
theorem c2_arg_mismatch_witness :
    get_args [KArg.scalar 1, KArg.scalar 2]
        [("x", ⟨ 'f' :: 'l' :: 'o' :: 'a' :: 't' :: [],
                'f' :: 'l' :: 'o' :: 'a' :: 't' :: []⟩)] 64 =
      some [CArg.hostbuf [1] 4] ∧
    [CArg.hostbuf [1] 4].length = min 2 1 := by
  refine ⟨by decide, ?_⟩
  exact c2_arg_mismatch [KArg.scalar 1, KArg.scalar 2]
    [("x", ⟨ 'f' :: 'l' :: 'o' :: 'a' :: 't' :: [],
            'f' :: 'l' :: 'o' :: 'a' :: 't' :: []⟩)] 64
    [CArg.hostbuf [1] 4] (by decide)

/-! ## Claim C9 -/

/-- Claim C9, counterexample: two successive `LocalMem.get` calls with the
same `(type, workgroup size)` key do NOT each request a fresh runtime
allocation.  With `LocalMem(2)` and key `('double', 128)`, the first call
allocates 2048 bytes (the docstring's `sizeof(double) * 128 * 2`) and caches
the object; the second call returns the identical cached object and issues
no runtime request (its request flag is `false`). -/
theorem c9_localmem_counterexample :
    lmGet ⟨2, []⟩ ('d' :: 'o' :: 'u' :: 'b' :: 'l' :: 'e' :: []) 128 0 =
      some (⟨0, 2048⟩,
        ⟨2, [((('d' :: 'o' :: 'u' :: 'b' :: 'l' :: 'e' :: [], 128)), ⟨0, 2048⟩)]⟩,
        true) ∧
    lmGet ⟨2, [((('d' :: 'o' :: 'u' :: 'b' :: 'l' :: 'e' :: [], 128)), ⟨0, 2048⟩)]⟩
        ('d' :: 'o' :: 'u' :: 'b' :: 'l' :: 'e' :: []) 128 1 =
      some (⟨0, 2048⟩,
        ⟨2, [((('d' :: 'o' :: 'u' :: 'b' :: 'l' :: 'e' :: [], 128)), ⟨0, 2048⟩)]⟩,
        false) := by
  exact ⟨by decide, by decide⟩

/-- Claim C9 (amended): `LocalMem.get` memoizes the allocation object itself
per `(element type, work-group size)` key: a cache hit returns the cached
object unchanged with no runtime allocation request, while a miss on a known
type requests one allocation of `itemsize * size * workgroup_size` bytes,
caches it, and flags the runtime request. -/
theorem c9_localmem_get (st : LMState) (ct : List Char) (ws fresh : Nat) :
    (∀ m, st.cache.lookup (ct, ws) = some m →
      lmGet st ct ws fresh = some (m, st, false)) ∧
    (∀ sz, st.cache.lookup (ct, ws) = none → ctype_itemsize ct = some sz →
      lmGet st ct ws fresh =
        some (⟨fresh, sz * st.size * ws⟩,
          ⟨st.size, ((ct, ws), ⟨fresh, sz * st.size * ws⟩) :: st.cache⟩, true)) := by
  constructor
  · intro m hm
    rw [lmGet, hm]
  · intro sz hm hsz
    rw [lmGet, hm, hsz]

/-- Witness for C9 at the counterexample key. -/
theorem c9_localmem_get_witness :
    (LMState.cache ⟨2, []⟩ |>.lookup
      (('d' :: 'o' :: 'u' :: 'b' :: 'l' :: 'e' :: [] : List Char), 128)) = none ∧
    ctype_itemsize ('d' :: 'o' :: 'u' :: 'b' :: 'l' :: 'e' :: []) = some 8 ∧
    lmGet ⟨2, []⟩ ('d' :: 'o' :: 'u' :: 'b' :: 'l' :: 'e' :: []) 128 0 =
      some (⟨0, 8 * 2 * 128⟩,
        ⟨2, [((('d' :: 'o' :: 'u' :: 'b' :: 'l' :: 'e' :: [], 128)), ⟨0, 8 * 2 * 128⟩)]⟩,
        true) := by
  refine ⟨by decide, by decide, ?_⟩
  exact (c9_localmem_get ⟨2, []⟩ ('d' :: 'o' :: 'u' :: 'b' :: 'l' :: 'e' :: []) 128 0).2
    8 (by decide) (by decide)

/-! ## Claim C8 -/

/-- Claim C8: the GPU entry-point fix-up rewrites exactly the last registered
block — its new code is its old lines with `KERNEL ` prepended to the first
line, rejoined — while all earlier blocks and the header are byte-for-byte
unchanged; moreover, when no line is lost to a trailing terminator, the new
code splits back into exactly the marked first line followed by the original
remaining lines. -/
theorem c8_kernel_marker (t : Transpiler) (init : List CodeBlock) (b : CodeBlock)
    (l0 : List Char) (rest : List (List Char))
    (hb : t.blocks = init ++ [b]) (hl : pySplitlines b.code = l0 :: rest) :
    correct_opencl_address_space t =
      some ⟨t.header,
        init ++ [⟨b.obj,
          joinNL ((('K' :: 'E' :: 'R' :: 'N' :: 'E' :: 'L' :: ' ' :: []) ++ l0) :: rest)⟩]⟩ ∧
    (∀ t2, correct_opencl_address_space t = some t2 →
      t2.header = t.header ∧ t2.blocks.dropLast = init) ∧
    ((rest = [] ∨ ∀ llast, rest.getLast? = some llast → llast ≠ []) →
      pySplitlines (joinNL ((('K' :: 'E' :: 'R' :: 'N' :: 'E' :: 'L' :: ' ' :: []) ++ l0) :: rest)) =
        (('K' :: 'E' :: 'R' :: 'N' :: 'E' :: 'L' :: ' ' :: []) ++ l0) :: rest) := by
  have hlast : t.blocks.getLast? = some b := by
    rw [hb, List.getLast?_append]
    rfl
  have hmain : correct_opencl_address_space t =
      some ⟨t.header,
        init ++ [⟨b.obj,
          joinNL ((('K' :: 'E' :: 'R' :: 'N' :: 'E' :: 'L' :: ' ' :: []) ++ l0) :: rest)⟩]⟩ := by
    rw [correct_opencl_address_space, hlast]
    simp only
    rw [hl]
    have hdrop : t.blocks.dropLast = init := by
      rw [hb, List.dropLast_concat]
    rw [hdrop]
  refine ⟨hmain, ?_, ?_⟩
  · intro t2 ht2
    rw [hmain] at ht2
    simp at ht2
    rw [← ht2]
    simp
  · intro hne
    apply pySplitlines_joinNL
    · intro l hlmem
      rcases List.mem_cons.mp hlmem with rfl | h2
      · intro hnl
        rcases List.mem_append.mp hnl with habs | habs
        · simp at habs
        · exact pySplitlines_no_newline b.code l0 (by rw [hl]; simp) habs
      · exact pySplitlines_no_newline b.code l
          (by rw [hl]; exact List.mem_cons_of_mem _ h2)
    · intro l hlget
      rcases hne with rfl | hne2
      · simp at hlget
        rw [← hlget]
        simp
      · rcases rest with _ | ⟨r1, rest2⟩
        · simp at hlget
          rw [← hlget]
          simp
        · rw [List.getLast?_cons_cons] at hlget
          exact hne2 l hlget

/-- Witness for C8: a two-block transpiler whose last block has code
`"WITHIN void f()\nbody"`. -/
theorem c8_kernel_marker_witness :
    (Transpiler.blocks ⟨['H'], [⟨0, ['A']⟩, ⟨1, 'v' :: '\n' :: 'b' :: []⟩]⟩ =
      [⟨0, ['A']⟩] ++ [⟨1, 'v' :: '\n' :: 'b' :: []⟩]) ∧
    (pySplitlines ('v' :: '\n' :: 'b' :: []) = ['v' :: [], 'b' :: []]) ∧
    correct_opencl_address_space ⟨['H'], [⟨0, ['A']⟩, ⟨1, 'v' :: '\n' :: 'b' :: []⟩]⟩ =
      some ⟨['H'], [⟨0, ['A']⟩] ++
        [⟨1, joinNL ((('K' :: 'E' :: 'R' :: 'N' :: 'E' :: 'L' :: ' ' :: []) ++ ('v' :: [])) ::
          ['b' :: []])⟩]⟩ ∧
    pySplitlines (joinNL ((('K' :: 'E' :: 'R' :: 'N' :: 'E' :: 'L' :: ' ' :: []) ++ ('v' :: [])) ::
        ['b' :: []])) =
      (('K' :: 'E' :: 'R' :: 'N' :: 'E' :: 'L' :: ' ' :: []) ++ ('v' :: [])) :: ['b' :: []] := by
  have h := c8_kernel_marker ⟨['H'], [⟨0, ['A']⟩, ⟨1, 'v' :: '\n' :: 'b' :: []⟩]⟩
    [⟨0, ['A']⟩] ⟨1, 'v' :: '\n' :: 'b' :: []⟩ ('v' :: []) ['b' :: []]
    (by decide) (by decide)
  exact ⟨by decide, by decide, h.1,
    h.2.2 (Or.inr (fun llast hl => by simp at hl; rw [← hl]; simp))⟩

/-! ## Claims C3, C4, C10 -/

/-- Claim C3: `Transpiler.add` is idempotent — after a successful `add f`,
adding `f` again returns (within any positive budget) the very same
transpiler, hence the same block list and the same `get_code()` output; the
registered objects stay duplicate-free (deduplication is by identity of the
originating function object, the only thing `CodeBlock.__eq__` compares),
`f` is registered, and every function reachable from a registered function
is registered (closure), so each is registered exactly once no matter how
often it is reachable. -/
theorem c3_add_idempotent (env : Env) (fuel fuel2 : Nat) (t t2 : Transpiler) (f : Nat)
    (h : tpAdd env fuel t f = some t2) (h2 : 1 ≤ fuel2)
    (hnd : (t.blocks.map CodeBlock.obj).Nodup)
    (hcl : ClosedBlocks env t.blocks) :
    tpAdd env fuel2 t2 f = some t2 ∧
    (∀ t3, tpAdd env fuel2 t2 f = some t3 →
      t3.blocks = t2.blocks ∧ get_code t3 = get_code t2) ∧
    (t2.blocks.map CodeBlock.obj).Nodup ∧
    f ∈ t2.blocks.map CodeBlock.obj ∧
    ClosedBlocks env t2.blocks := by
  unfold tpAdd at h
  cases hadd : addF env fuel f t.blocks with
  | none => rw [hadd] at h; simp at h
  | some bs =>
    rw [hadd] at h
    simp at h
    have hbs : t2.blocks = bs := by rw [← h]
    have hmem : f ∈ t2.blocks.map CodeBlock.obj := by
      rw [hbs]; exact addF_mem_self env fuel f t.blocks bs hadd
    have hsecond : addF env fuel2 f t2.blocks = some t2.blocks := by
      cases fuel2 with
      | zero => omega
      | succ k => rw [addF_succ, if_pos hmem]
    have htp2 : tpAdd env fuel2 t2 f = some t2 := by
      unfold tpAdd
      rw [hsecond]
      simp
    refine ⟨htp2, ?_, ?_, hmem, ?_⟩
    · intro t3 ht3
      rw [htp2] at ht3
      simp at ht3
      rw [ht3]
      exact ⟨rfl, rfl⟩
    · rw [hbs]; exact addF_nodup env fuel f t.blocks bs hadd hnd
    · rw [hbs]; exact addF_closed env fuel f t.blocks bs hadd hcl

/-- Claim C4 (amended): after any sequence of `add` calls starting from an
empty transpiler, the registered blocks are in dependency order (every
callee of the block at position `i` is registered strictly before `i`, hence
earlier in `get_code()`'s concatenation); and provided the directly added
roots are not builtins (and module resolution of a non-builtin identifier
never produces a builtin-named function), no registered block carries a name
from the builtin allow-list.  The builtin clause of the claim as stated —
with no restriction on the roots — is refuted by the counterexample: `add`
applied directly to the repository function `local_barrier` registers it
even though its name is on the allow-list. -/
theorem c4_dep_order_builtins (env : Env) (fuel : Nat) (roots : List Nat)
    (bs : List CodeBlock) (h : runList (addF env fuel) roots [] = some bs) :
    DepOrd env bs ∧
    ((∀ s, s ∉ BUILTINS env → env.fname (env.resolve s) ∉ BUILTINS env) →
      (∀ f ∈ roots, env.fname f ∉ BUILTINS env) →
      ∀ b ∈ bs, env.fname b.obj ∉ BUILTINS env) := by
  constructor
  · exact runList_pres (DepOrd env) roots [] bs
      (fun g _ cs cs2 hs hP => addF_depOrd env fuel g cs cs2 hs hP) h
      (fun i hi => by simp at hi)
  · intro hres hroots
    exact runList_pres (NoBuiltins env) roots [] bs
      (fun g hg cs cs2 hs hP =>
        addF_noBuiltins env hres fuel g cs cs2 hs (hroots g hg) hP) h
      (fun b hb => by simp at hb)

/-- Claim C10: `Transpiler.add` terminates on every function whose call graph
admits a rank strictly decreasing along (non-builtin) call edges — i.e. is
acyclic — returning within budget `rank + 1`; and for a function belonging to
a call cycle (equivalently, to any set each of whose members calls another
member — the self-call being the one-element case), `add` fails to return
within EVERY recursion budget, i.e. the untracked Python recursion never
terminates. -/
theorem c10_add_termination (env1 : Env) (r : Nat → Nat)
    (hr : ∀ f g, g ∈ get_all_functions env1 f → r g < r f) (f1 : Nat)
    (env2 : Env) (f2 : Nat) (C : List Nat) (hf2 : f2 ∈ C)
    (hC : ∀ c ∈ C, ∃ c2 ∈ C, c2 ∈ get_all_functions env2 c) :
    (addF env1 (r f1 + 1) f1 []).isSome = true ∧
    ∀ fuel, addF env2 fuel f2 [] = none := by
  constructor
  · exact addF_term env1 r hr (r f1 + 1) f1 [] (by omega)
  · intro fuel
    exact addF_cycle_none env2 C hC fuel f2 [] hf2 (by intro c _; simp)

/-! Concrete environments for the transpiler witnesses and counterexample:
`envWitA` models a module with a kernel `f` (object 0) calling one helper `g`
(object 1) which calls nothing; `envWitC` models a module with one
self-recursive function (object 5); `envLB` models the repository module
`low_level` containing `local_barrier` (object 7), whose name is on the
builtin allow-list. -/

def envWitA : Env := {
  fname := fun n => if n = 0 then "f" else "g",
  calls := fun n => if n = 0 then ["g"] else [],
  resolve := fun _ => 1,
  gen := fun n => if n = 0 then ['F'] else ['G'],
  mathNames := [] }

def envWitC : Env := {
  fname := fun _ => "h",
  calls := fun _ => ["h"],
  resolve := fun _ => 5,
  gen := fun _ => [],
  mathNames := [] }

def envLB : Env := {
  fname := fun _ => "local_barrier",
  calls := fun _ => [],
  resolve := fun _ => 7,
  gen := fun _ => [],
  mathNames := [] }

/-- Witness for C3: add kernel 0 (with helper 1) to an empty transpiler, then
add it again with budget 4 — the transpiler is unchanged. -/
theorem c3_add_idempotent_witness :
    tpAdd envWitA 3 ⟨[], []⟩ 0 = some ⟨[], [⟨1, ['G']⟩, ⟨0, ['F']⟩]⟩ ∧
    tpAdd envWitA 4 ⟨[], [⟨1, ['G']⟩, ⟨0, ['F']⟩]⟩ 0 =
      some ⟨[], [⟨1, ['G']⟩, ⟨0, ['F']⟩]⟩ ∧
    (([⟨1, ['G']⟩, ⟨0, ['F']⟩] : List CodeBlock).map CodeBlock.obj).Nodup ∧
    0 ∈ ([⟨1, ['G']⟩, ⟨0, ['F']⟩] : List CodeBlock).map CodeBlock.obj := by
  have h := c3_add_idempotent envWitA 3 4 ⟨[], []⟩ ⟨[], [⟨1, ['G']⟩, ⟨0, ['F']⟩]⟩ 0
    (by decide) (by decide) (by decide) (by intro x hx; simp at hx)
  exact ⟨by decide, h.1, h.2.2.1, h.2.2.2.1⟩

/-- Claim C4, counterexample: directly adding the repository function
`local_barrier` (a genuine `def` in `low_level.py` whose name is on the
builtin allow-list) registers it as a unit — `add` filters builtins only out
of the discovered callees, never out of its own argument. -/
theorem c4_builtin_counterexample :
    addF envLB 2 7 [] = some [⟨7, []⟩] ∧
    envLB.fname 7 ∈ BUILTINS envLB := by
  exact ⟨by decide, by decide⟩

/-- Witness for C4: for the add sequence `[0]` in `envWitA`, the helper
(position 0) precedes the kernel (position 1) and callee 1 of the block at
position 1 is registered before it; no registered name is builtin. -/
theorem c4_dep_order_builtins_witness :
    runList (addF envWitA 3) [0] [] = some [⟨1, ['G']⟩, ⟨0, ['F']⟩] ∧
    1 ∈ ((([⟨1, ['G']⟩, ⟨0, ['F']⟩] : List CodeBlock).take 1).map CodeBlock.obj) ∧
    envWitA.fname (CodeBlock.obj ⟨0, ['F']⟩) ∉ BUILTINS envWitA := by
  have h := c4_dep_order_builtins envWitA 3 [0] [⟨1, ['G']⟩, ⟨0, ['F']⟩] (by decide)
  refine ⟨by decide, ?_, ?_⟩
  · have h2 := h.1 1 (by decide) 1 (by
      show (1 : Nat) ∈ get_all_functions envWitA
        (([⟨1, ['G']⟩, ⟨0, ['F']⟩] : List CodeBlock)[1].obj)
      decide)
    exact h2
  · exact h.2 (fun s _ => by
      show ("g" : String) ∉ BUILTINS envWitA
      decide) (fun f hf => by
      simp at hf
      rw [hf]
      decide) ⟨0, ['F']⟩ (by simp)

/-- Witness for C10: in `envWitA` (acyclic, rank 1 for the kernel) `add`
returns within budget 2; in `envWitC` the self-recursive function never
returns, for any budget (3 shown). -/
theorem c10_add_termination_witness :
    (addF envWitA 2 0 []).isSome = true ∧
    addF envWitC 3 5 [] = none := by
  have h := c10_add_termination envWitA (fun n => if n = 0 then 1 else 0)
    (by
      intro f g hg
      by_cases hf : f = 0
      · subst hf
        have hg0 : get_all_functions envWitA 0 = [1] := by decide
        rw [hg0] at hg
        simp at hg
        rw [hg]
        decide
      · have hcalls : envWitA.calls f = [] := by simp [envWitA, hf]
        have hgaf : get_all_functions envWitA f = [] := by
          unfold get_all_functions filter_calls
          rw [hcalls]
          rfl
        rw [hgaf] at hg
        simp at hg)
    0 envWitC 5 [5] (by simp)
    (by
      intro c hc
      simp at hc
      subst hc
      refine ⟨5, by simp, ?_⟩
      have h5 : get_all_functions envWitC 5 = [5] := by decide
      rw [h5]
      simp)
  exact ⟨h.1, h.2 3⟩

end PySPH
